import Mathlib

/-!
# MeshRadio — verification of the simulation-engine specification

The repository ships a browser dashboard (`src/web/static/js/script.js`)
that consumes a mesh-network tank simulation over an HTTP API.  The engine
itself does not appear in the sources; its behaviour is specified by the
natural-language document.  Below we give a shallow embedding of that
engine — terrain generation, agent mobility, link computation, the
start/stop/reset/set_params/kill_tank control surface and the tick loop —
modelled from the spec, together with an embedding of the dashboard's own
`applyParameters` request builder (which is real code in the repository),
and we prove the specified properties about them.

Real numbers of the engine are embedded as rationals (`ℚ`), which keeps
every definition executable and every predicate decidable.
-/

namespace MeshRadio

/-- Modelled from the spec: the engine's in-process pseudo-random state
(`§5`: "terrain/tank generation uses only in-process pseudo-random state,
seedable for reproducibility").  A linear congruential step on naturals,
reduced mod `2^32`. -/
def lcgNext (s : ℕ) : ℕ := (1664525 * s + 1013904223) % 2 ^ 32

/-- Modelled from the spec: derive a rational in `[0,1)` from a PRNG state. -/
def unit01 (s : ℕ) : ℚ := ((s % 2 ^ 16 : ℕ) : ℚ) / (2 ^ 16 : ℚ)

/-! ## TerrainField -/

namespace TerrainField

/-- Modelled from the spec (§4.1): the independent random value of one grid
cell, a deterministic function of the terrain seed and the cell
coordinates, valued in `[0,1)`. -/
def rawCell (seed h x y : ℕ) : ℚ := unit01 (lcgNext (seed + x * h + y))

/-- Modelled from the spec (§4.1): the smoothing window along one axis —
`r + 1` consecutive cell coordinates starting at `x`, wrapped modulo the
grid extent, so that larger `r` (derived from `sigma`) yields broader,
smoother averaging. -/
def window (x r m : ℕ) : List ℕ := (List.range (r + 1)).map (fun i => (x + i) % m)

/-- Modelled from the spec (§4.1): the smoothed altitude of one cell — the
arithmetic mean of the raw values over the separable
`(sx + 1) × (sy + 1)` window. -/
def smoothAt (w h sx sy seed x y : ℕ) : ℚ :=
  let vals := (window x sx w).flatMap (fun i => (window y sy h).map (fun j => rawCell seed h i j))
  vals.sum / (vals.length : ℚ)

/-- Modelled from the spec (§4.1):
`generate(width, height, sigmaX, sigmaY, seed) -> altitude grid`, a dense
grid of smoothed random heights, indexed `altitude[x][y]`. -/
def generate (width height sx sy seed : ℕ) : List (List ℚ) :=
  (List.range width).map (fun x => (List.range height).map (fun y => smoothAt width height sx sy seed x y))

end TerrainField

/-! ## Data model -/

/-- Modelled from the spec (§3): a Tank has a stable identity `idx`, a
position in the map, and an `alive` flag. -/
structure Tank where
  idx : ℕ
  pos : ℚ × ℚ
  alive : Bool
deriving DecidableEq, Repr

/-- Modelled from the spec (§3): a link participant identity — a tank
(referenced by its stable `idx`) or the single fixed HQ. -/
inductive PartId where
  | hq : PartId
  | tank (idx : ℕ) : PartId
deriving DecidableEq, Repr

/-- Modelled from the spec (§3): Parameters — `nb_tanks` (integer),
`max_step_size` (real per-tick displacement bound), `sigmas` (pair of
terrain-smoothing lengths). -/
structure Params where
  nb_tanks : ℕ
  max_step_size : ℚ
  sigmaX : ℚ
  sigmaY : ℚ
deriving DecidableEq, Repr

/-- Modelled from the spec (§4.4): parameter validation —
`nb_tanks > 0`, `max_step_size ≥ 0`, `sigmas` components `> 0`. -/
def validParams (p : Params) : Bool :=
  decide (0 < p.nb_tanks) && decide ((0 : ℚ) ≤ p.max_step_size) &&
    decide ((0 : ℚ) < p.sigmaX) && decide ((0 : ℚ) < p.sigmaY)

/-- Fixed map width (world units); the spec exposes `map_size` as an
engine constant, not a tunable parameter. -/
def mapW : ℕ := 100

/-- Fixed map height (world units). -/
def mapH : ℕ := 100

/-- Modelled from the spec (§4.3): the fixed communication range `R`,
"a fixed engine constant (not exposed as a tunable parameter)". -/
def commRange : ℚ := 150

/-- Smoothing-window radius derived from a sigma parameter. -/
def radOf (s : ℚ) : ℕ := ⌊s⌋.toNat

/-! ## ConnectivityEngine -/

/-- Squared Euclidean distance between two points. -/
def dist2 (p q : ℚ × ℚ) : ℚ := (p.1 - q.1) ^ 2 + (p.2 - q.2) ^ 2

/-- Modelled from the spec (§4.3): the range test — two participants are
linked iff their Euclidean distance is within `R`, i.e. squared distance
within `R²` (zero distance counts as linked). -/
def inRange (R : ℚ) (p q : ℚ × ℚ) : Bool := decide (dist2 p q ≤ R ^ 2)

/-- All unordered pairs of a list, each taken once, first component
strictly earlier in the list. -/
def allPairs : List α → List (α × α)
  | [] => []
  | x :: xs => xs.map (fun y => (x, y)) ++ allPairs xs

/-- Modelled from the spec (§4.3): the link participants — the HQ and
every alive tank, each with its identity and current position. -/
def linkParts (alive : List Tank) (hqPos : ℚ × ℚ) : List (PartId × (ℚ × ℚ)) :=
  (PartId.hq, hqPos) :: alive.map (fun t => (PartId.tank t.idx, t.pos))

/-- Modelled from the spec (§4.3):
`compute_links(tanks_alive, hq) -> set of pairs` — the naive O(n²)
pairwise range check over the participants (the HQ and every alive tank),
producing each link once as an unordered pair of identities, no self
pairs. -/
def compute_links (R : ℚ) (alive : List Tank) (hqPos : ℚ × ℚ) : List (PartId × PartId) :=
  ((allPairs (linkParts alive hqPos)).filter (fun pq => inRange R pq.1.2 pq.2.2)).map
    (fun pq => (pq.1.1, pq.2.1))

/-! ## AgentMobilityModel -/

/-- Modelled from the spec (§4.2): positions are clamped (not reflected)
to the map bounds; we clamp each coordinate into `[0, m-1] ⊆ [0, m)`. -/
def clampCoord (m : ℕ) (x : ℚ) : ℚ := max 0 (min x ((m : ℚ) - 1))

/-- Modelled from the spec (§4.2): one mobility step for one tank.  An
alive tank draws an independent per-axis displacement in
`[-bound, bound]`, clipped to the disk of radius `bound` (a draw falling
outside the disk is replaced by the zero displacement), and the resulting
position is clamped to the map bounds.  A dead tank is skipped entirely
and consumes no randomness. -/
def moveTank (w h : ℕ) (bound : ℚ) (t : Tank) (rng : ℕ) : Tank × ℕ :=
  if t.alive then
    let s1 := lcgNext rng
    let s2 := lcgNext s1
    let dx0 := bound * (2 * unit01 s1 - 1)
    let dy0 := bound * (2 * unit01 s2 - 1)
    let d : ℚ × ℚ := if dist2 (dx0, dy0) (0, 0) ≤ bound ^ 2 then (dx0, dy0) else (0, 0)
    ({ t with pos := (clampCoord w (t.pos.1 + d.1), clampCoord h (t.pos.2 + d.2)) }, s2)
  else (t, rng)

/-- Modelled from the spec (§4.5(a)): advance every tank in sequence,
threading the PRNG state. -/
def stepTanks (w h : ℕ) (bound : ℚ) : List Tank → ℕ → List Tank × ℕ
  | [], rng => ([], rng)
  | t :: ts, rng =>
    let m := moveTank w h bound t rng
    let r := stepTanks w h bound ts m.2
    (m.1 :: r.1, r.2)

/-! ## SimulationController state -/

/-- The run/stop state machine of §4.4. -/
inductive RunState where
  | STOPPED : RunState
  | RUNNING : RunState
deriving DecidableEq, Repr

/-- Modelled from the spec (§3, §4.5): the full engine state owned by the
SimulationController — current Parameters, run state, step counter,
terrain, HQ, targets, the tank population (alive flags included), the
derived link set, and the PRNG state. -/
structure EngineState where
  params : Params
  runState : RunState
  step : ℕ
  altitude : List (List ℚ)
  hq : ℚ × ℚ
  targets : List (ℚ × ℚ)
  tanks : List Tank
  links : List (PartId × PartId)
  rng : ℕ
deriving DecidableEq, Repr

/-- A uniformly random coordinate in `[0, m-1]`. -/
def randCoord (m : ℕ) (s : ℕ) : ℚ := unit01 s * ((m : ℚ) - 1)

/-- Draw one random point on the map, returning the new PRNG state. -/
def randPoint (w h : ℕ) (rng : ℕ) : (ℚ × ℚ) × ℕ :=
  let s1 := lcgNext rng
  let s2 := lcgNext s1
  ((randCoord w s1, randCoord h s2), s2)

/-- Draw `n` random points on the map. -/
def genPoints (w h : ℕ) : ℕ → ℕ → List (ℚ × ℚ) × ℕ
  | 0, rng => ([], rng)
  | n + 1, rng =>
    let p := randPoint w h rng
    let r := genPoints w h n p.2
    (p.1 :: r.1, r.2)

/-- Modelled from the spec (§3, §4.4): create tanks with consecutive
stable identities starting at `start`, at random positions, all alive. -/
def initTanksAux (w h : ℕ) : ℕ → ℕ → ℕ → List Tank × ℕ
  | _, 0, rng => ([], rng)
  | start, n + 1, rng =>
    let p := randPoint w h rng
    let r := initTanksAux w h (start + 1) n p.2
    ({ idx := start, pos := p.1, alive := true } :: r.1, r.2)

/-- Number of targets generated per terrain instance (a fixed engine
constant; the spec only requires "a fixed set of points"). -/
def nbTargets : ℕ := 3

/-- Modelled from the spec (§3, §4.4): (re)initialize the world from the
given Parameters — regenerate terrain from the sigmas and the seed, place
the HQ at the map center, generate the fixed targets, recreate
`nb_tanks` tanks at random positions all alive, clear links, `step := 0`,
STOPPED. -/
def initState (p : Params) (seed : ℕ) : EngineState :=
  let tg := genPoints mapW mapH nbTargets (lcgNext seed)
  let tk := initTanksAux mapW mapH 0 p.nb_tanks tg.2
  { params := p
    runState := .STOPPED
    step := 0
    altitude := TerrainField.generate mapW mapH (radOf p.sigmaX) (radOf p.sigmaY) seed
    hq := ((mapW : ℚ) / 2, (mapH : ℚ) / 2)
    targets := tg.1
    tanks := tk.1
    links := []
    rng := tk.2 }

/-- Does a link pair reference the tank identity `i`? -/
def refersTank (pr : PartId × PartId) (i : ℕ) : Bool :=
  decide (pr.1 = PartId.tank i) || decide (pr.2 = PartId.tank i)

/-- Modelled from the spec (§4.4): `kill_tank(idx)` — if a tank with that
identity exists and is alive, mark exactly it not-alive and drop every
link that references it; otherwise a no-op.  Identities of other tanks
are not shifted or renumbered. -/
def killTank (st : EngineState) (i : ℕ) : EngineState :=
  if st.tanks.any (fun t => t.idx == i && t.alive) then
    { st with
      tanks := st.tanks.map (fun t => if t.idx = i then { t with alive := false } else t)
      links := st.links.filter (fun pr => ! refersTank pr i) }
  else st

/-- The control commands of §4.4 / §6. -/
inductive Command where
  | start : Command
  | stop : Command
  | reset : Command
  | set_params (p : Params) : Command
  | kill_tank (idx : ℕ) : Command
deriving DecidableEq, Repr

/-- Modelled from the spec (§4.4): the ControlSurface transition for one
command.  `start`/`stop` flip the run state (idempotently, touching
nothing else); `reset` reinitializes from the current Parameters;
`set_params` validates and on success atomically replaces Parameters and
performs the equivalent of a reset, rejecting invalid input without
mutating state; `kill_tank` is `killTank`. -/
def applyCommand (st : EngineState) : Command → EngineState
  | .start => { st with runState := .RUNNING }
  | .stop => { st with runState := .STOPPED }
  | .reset => initState st.params st.rng
  | .set_params p => if validParams p then initState p st.rng else st
  | .kill_tank i => killTank st i

/-- Modelled from the spec (§4.5): one tick — while RUNNING, advance every
alive tank, recompute the links from the alive positions and the HQ, and
increment `step`; while STOPPED nothing advances. -/
def tick (st : EngineState) : EngineState :=
  match st.runState with
  | .STOPPED => st
  | .RUNNING =>
    let mv := stepTanks mapW mapH st.params.max_step_size st.tanks st.rng
    { st with
      tanks := mv.1
      rng := mv.2
      links := compute_links commRange (mv.1.filter (fun t => t.alive)) st.hq
      step := st.step + 1 }

/-- An observable event of the engine: a tick of the loop or a control
command (commands are applied strictly between ticks, §4.5, so a run is a
sequence of such events). -/
inductive Event where
  | tick : Event
  | command (c : Command) : Event
deriving DecidableEq, Repr

/-- Apply one event. -/
def applyEvent (st : EngineState) : Event → EngineState
  | .tick => tick st
  | .command c => applyCommand st c

/-- Run the engine over a sequence of events. -/
def runEvents (st : EngineState) : List Event → EngineState
  | [] => st
  | e :: es => runEvents (applyEvent st e) es

/-! ## Snapshot publication -/

/-- Modelled from the spec (§3, §9): the published SimulationState
snapshot — `tanks` is the ordered sequence of alive tanks only, and
`links` is translated from stable identities to positions in that
sequence for positional consumers. -/
structure Snapshot where
  step : ℕ
  running : Bool
  map_size : ℕ × ℕ
  altitude : List (List ℚ)
  tanks : List Tank
  links : List (ℕ × ℕ)
  hq : ℚ × ℚ
  targets : List (ℚ × ℚ)
deriving DecidableEq, Repr

/-- Position of the first entry satisfying a predicate. -/
def idxOf? (p : α → Bool) : List α → Option ℕ
  | [] => none
  | a :: l => if p a then some 0 else (idxOf? p l).map (· + 1)

/-- Translate one identity link into a pair of positions in the published
alive-tank sequence (§9: "the snapshot layer must translate to positions
for any positional consumer"); a pair that involves the HQ has no
positional encoding and is not published positionally. -/
def linkToPos (tks : List Tank) : PartId × PartId → Option (ℕ × ℕ)
  | (.tank a, .tank b) =>
    match idxOf? (fun t => t.idx == a) tks, idxOf? (fun t => t.idx == b) tks with
    | some i, some j => some (i, j)
    | _, _ => none
  | _ => none

/-- Modelled from the spec (§4.5, §9): publish the immutable snapshot of
an engine state. -/
def publish (st : EngineState) : Snapshot :=
  let alive := st.tanks.filter (fun t => t.alive)
  { step := st.step
    running := decide (st.runState = .RUNNING)
    map_size := (mapW, mapH)
    altitude := st.altitude
    tanks := alive
    links := st.links.filterMap (linkToPos alive)
    hq := st.hq
    targets := st.targets }

/-! ## Checkers and invariants -/

/-- Is a link participant currently alive in the given state?  The HQ is
always alive; a tank identity is alive iff some tank in the population
carries that `idx` with its `alive` flag set. -/
def partAlive (st : EngineState) : PartId → Bool
  | .hq => true
  | .tank i => st.tanks.any (fun t => t.idx == i && t.alive)

/-- Decidable check of the spec invariant "a link never references a
non-alive tank" (§3, §8). -/
def linksAliveCheck (st : EngineState) : Bool :=
  st.links.all (fun pr => partAlive st pr.1 && partAlive st pr.2)

/-- Decidable check that a point lies within `[0,w) × [0,h)`. -/
def inBoundsB (w h : ℕ) (p : ℚ × ℚ) : Bool :=
  decide (0 ≤ p.1) && decide (p.1 < (w : ℚ)) &&
    decide (0 ≤ p.2) && decide (p.2 < (h : ℚ))

/-- Decidable check of the spec invariant "no tank position lies outside
`[0,width)×[0,height)`" (§8). -/
def posCheck (st : EngineState) : Bool :=
  st.tanks.all (fun t => inBoundsB mapW mapH t.pos)

/-- Decidable check of one mobility step for one tank (§4.2): an alive
tank keeps its identity, stays alive, is displaced by at most `bound` in
Euclidean distance, and lands inside the map; a dead tank is left exactly
as it was. -/
def moveOk (bound : ℚ) (t u : Tank) : Bool :=
  if t.alive then
    (u.idx == t.idx) && u.alive && decide (dist2 t.pos u.pos ≤ bound ^ 2) &&
      inBoundsB mapW mapH u.pos
  else decide (u = t)

/-- `moveOk` over two tank sequences, pointwise. -/
def moveAllOk (bound : ℚ) : List Tank → List Tank → Bool
  | [], [] => true
  | t :: ts, u :: us => moveOk bound t u && moveAllOk bound ts us
  | _, _ => false

/-- Decidable check that the mobility update a tick would apply to a
state displaces every alive tank by at most `max_step_size`, keeps every
tank in bounds, and skips dead tanks. -/
def stepCheck (st : EngineState) : Bool :=
  moveAllOk st.params.max_step_size st.tanks
    (stepTanks mapW mapH st.params.max_step_size st.tanks st.rng).1

/-- Decidable check that every positional link pair of a published
snapshot indexes two existing entries of its `tanks` sequence. -/
def linkIndexCheck (s : Snapshot) : Bool :=
  s.links.all (fun pr =>
    decide (pr.1 < s.tanks.length) && decide (pr.2 < s.tanks.length))

/-- Events that do not recreate the tank population: every tick and every
command except `reset` and `set_params` (destruction is permanent for an
identity until the next reset, §3). -/
def preservesPop : Event → Bool
  | .command .reset => false
  | .command (.set_params _) => false
  | _ => true

/-- A tank position within the clamp range `[0, m-1]` on each axis. -/
def posInClampT (t : Tank) : Prop :=
  0 ≤ t.pos.1 ∧ t.pos.1 ≤ (mapW : ℚ) - 1 ∧ 0 ≤ t.pos.2 ∧ t.pos.2 ≤ (mapH : ℚ) - 1

/-- Position invariant of a state. -/
def PosOk (st : EngineState) : Prop := ∀ t ∈ st.tanks, posInClampT t

/-- Link invariant of a state: both sides of every stored link are
currently alive. -/
def LinksOk (st : EngineState) : Prop :=
  ∀ pr ∈ st.links, partAlive st pr.1 = true ∧ partAlive st pr.2 = true

/-! ## Dashboard (real code, `src/web/static/js/script.js`) -/

namespace Dashboard

/-- JavaScript `parseInt` applied to the decimal string of a finite
numeric input-field value: it reads the sign and the integer digits and
stops at the decimal point, which truncates the value toward zero. -/
def jsParseInt (q : ℚ) : ℤ := if 0 ≤ q then ⌊q⌋ else ⌈q⌉

/-- JavaScript `parseFloat` applied to the decimal string of a finite
numeric input-field value: it reads the whole number back. -/
def jsParseFloat (q : ℚ) : ℚ := q

/-- The shape of the `/api/params` request body: JSON numbers
throughout. -/
structure ParamsRequest where
  nb_tanks : ℚ
  max_step_size : ℚ
  sigmas : ℚ × ℚ
deriving DecidableEq, Repr

/-- Embedded from `applyParameters` in `src/web/static/js/script.js`
(lines 227–252): the request body is built as
`nb_tanks: parseInt(nbTanksInput.value)`,
`max_step_size: parseFloat(maxStepSizeInput.value)`,
`sigmas: [parseInt(sigmaXInput.value), parseInt(sigmaYInput.value)]`,
from the four numeric input fields. -/
def applyParameters (nbTanksValue maxStepSizeValue sigmaXValue sigmaYValue : ℚ) : ParamsRequest :=
  { nb_tanks := (jsParseInt nbTanksValue : ℚ)
    max_step_size := jsParseFloat maxStepSizeValue
    sigmas := ((jsParseInt sigmaXValue : ℚ), (jsParseInt sigmaYValue : ℚ)) }

end Dashboard

/-! # Theorems -/

theorem unit01_nonneg (s : ℕ) : 0 ≤ unit01 s := by
  unfold unit01
  positivity

theorem unit01_lt_one (s : ℕ) : unit01 s < 1 := by
  unfold unit01
  rw [div_lt_one (by norm_num)]
  have h : (s % 2 ^ 16) < 2 ^ 16 := Nat.mod_lt _ (by norm_num)
  exact_mod_cast h

theorem rawCell_nonneg (seed h x y : ℕ) : 0 ≤ TerrainField.rawCell seed h x y :=
  unit01_nonneg _

theorem rawCell_le_one (seed h x y : ℕ) : TerrainField.rawCell seed h x y ≤ 1 :=
  le_of_lt (unit01_lt_one _)

/-- A sum of list entries each bounded by `1` is at most the length. -/
theorem list_sum_le_length (l : List ℚ) (h : ∀ v ∈ l, v ≤ 1) :
    l.sum ≤ (l.length : ℚ) := by
  induction l with
  | nil => simp
  | cons a t ih =>
    simp only [List.sum_cons, List.length_cons]
    have ha : a ≤ 1 := h a (List.mem_cons_self a t)
    have ht : t.sum ≤ (t.length : ℚ) := ih (fun v hv => h v (List.mem_cons_of_mem a hv))
    push_cast
    linarith

/-- A sum of nonnegative list entries is nonnegative. -/
theorem list_sum_nonneg (l : List ℚ) (h : ∀ v ∈ l, 0 ≤ v) : 0 ≤ l.sum := by
  induction l with
  | nil => simp
  | cons a t ih =>
    simp only [List.sum_cons]
    have ha : 0 ≤ a := h a (List.mem_cons_self a t)
    have ht : 0 ≤ t.sum := ih (fun v hv => h v (List.mem_cons_of_mem a hv))
    linarith

theorem smoothAt_nonneg (w h sx sy seed x y : ℕ) :
    0 ≤ TerrainField.smoothAt w h sx sy seed x y := by
  unfold TerrainField.smoothAt
  apply div_nonneg
  · apply list_sum_nonneg
    intro v hv
    simp only [List.mem_flatMap, List.mem_map] at hv
    obtain ⟨i, _, j, _, rfl⟩ := hv
    exact rawCell_nonneg _ _ _ _
  · positivity

theorem smoothAt_le_one (w h sx sy seed x y : ℕ) :
    TerrainField.smoothAt w h sx sy seed x y ≤ 1 := by
  unfold TerrainField.smoothAt
  set vals := (TerrainField.window x sx w).flatMap
    (fun i => (TerrainField.window y sy h).map (fun j => TerrainField.rawCell seed h i j)) with hvals
  rcases Nat.eq_zero_or_pos vals.length with hz | hp
  · rw [List.length_eq_zero] at hz
    simp [hz]
  · rw [div_le_one (by exact_mod_cast hp)]
    apply list_sum_le_length
    intro v hv
    rw [hvals] at hv
    simp only [List.mem_flatMap, List.mem_map] at hv
    obtain ⟨i, _, j, _, rfl⟩ := hv
    exact rawCell_le_one _ _ _ _

/-- C9: `TerrainField.generate` is deterministic and total — for a fixed
seed and fixed parameters two runs produce identical altitude grids, and
every cell of the produced grid is finite-valued (here: a well-defined
rational bounded in `[0, 1]`). -/
theorem generate_deterministic_and_finite (w h sx sy seed : ℕ) :
    TerrainField.generate w h sx sy seed = TerrainField.generate w h sx sy seed ∧
    ∀ row ∈ TerrainField.generate w h sx sy seed, ∀ v ∈ row, 0 ≤ v ∧ v ≤ 1 := by
  refine ⟨rfl, ?_⟩
  intro row hrow v hv
  unfold TerrainField.generate at hrow
  simp only [List.mem_map, List.mem_range] at hrow
  obtain ⟨x, _, rfl⟩ := hrow
  simp only [List.mem_map, List.mem_range] at hv
  obtain ⟨y, _, rfl⟩ := hv
  exact ⟨smoothAt_nonneg w h sx sy seed x y, smoothAt_le_one w h sx sy seed x y⟩

/-- Witness for C9 at a concrete grid cell. -/
theorem generate_deterministic_and_finite_witness :
    0 ≤ TerrainField.smoothAt 1 1 0 0 0 0 0 ∧ TerrainField.smoothAt 1 1 0 0 0 0 0 ≤ 1 :=
  (generate_deterministic_and_finite 1 1 0 0 0).2
    ((List.range 1).map (fun y => TerrainField.smoothAt 1 1 0 0 0 0 y))
    (by simp [TerrainField.generate]) _ (by simp)

/-! ### Pair-list lemmas for the connectivity engine -/

theorem mem_allPairs_iff_sublist {l : List α} {a b : α} :
    (a, b) ∈ allPairs l ↔ List.Sublist [a, b] l := by
  induction l with
  | nil => simp [allPairs]
  | cons x xs ih =>
    simp only [allPairs, List.mem_append, List.mem_map]
    constructor
    · rintro (⟨y, hy, heq⟩ | h)
      · rw [Prod.ext_iff] at heq
        obtain ⟨h1, h2⟩ := heq
        subst h1
        subst h2
        exact (List.singleton_sublist.mpr hy).cons₂ _
      · exact (ih.mp h).cons x
    · intro h
      cases h with
      | cons _ ht => exact Or.inr (ih.mpr ht)
      | cons₂ _ ht => exact Or.inl ⟨b, List.singleton_sublist.mp ht, rfl⟩

theorem mem_of_mem_allPairs {l : List α} {pq : α × α} (h : pq ∈ allPairs l) :
    pq.1 ∈ l ∧ pq.2 ∈ l := by
  have hs : List.Sublist [pq.1, pq.2] l := mem_allPairs_iff_sublist.mp h
  exact ⟨hs.subset (by simp), hs.subset (by simp)⟩

theorem sublist_pair_of_mem {l : List α} {a b : α} (hne : a ≠ b)
    (ha : a ∈ l) (hb : b ∈ l) : List.Sublist [a, b] l ∨ List.Sublist [b, a] l := by
  induction l with
  | nil => simp at ha
  | cons x xs ih =>
    rcases List.mem_cons.mp ha with rfl | ha2
    · rcases List.mem_cons.mp hb with rfl | hb2
      · exact absurd rfl hne
      · exact Or.inl ((List.singleton_sublist.mpr hb2).cons₂ a)
    · rcases List.mem_cons.mp hb with rfl | hb2
      · exact Or.inr ((List.singleton_sublist.mpr ha2).cons₂ b)
      · rcases ih ha2 hb2 with h | h
        · exact Or.inl (h.cons x)
        · exact Or.inr (h.cons x)

theorem pair_sublist_antisymm {l : List α} (hl : l.Nodup) :
    ∀ {a b : α}, List.Sublist [a, b] l → List.Sublist [b, a] l → a = b := by
  induction l with
  | nil =>
    intro a b h1 _
    simp at h1
  | cons x xs ih =>
    intro a b h1 h2
    rw [List.nodup_cons] at hl
    obtain ⟨hx, hxs⟩ := hl
    cases h1 with
    | cons _ h1t =>
      cases h2 with
      | cons _ h2t => exact ih hxs h1t h2t
      | cons₂ _ h2t =>
        exact absurd (h1t.subset (by simp)) hx
    | cons₂ _ h1t =>
      cases h2 with
      | cons _ h2t =>
        exact absurd (h2t.subset (by simp)) hx
      | cons₂ _ h2t => rfl

theorem nodup_allPairs {l : List α} (hl : l.Nodup) : (allPairs l).Nodup := by
  induction l with
  | nil => simp [allPairs]
  | cons x xs ih =>
    rw [List.nodup_cons] at hl
    obtain ⟨hx, hxs⟩ := hl
    refine List.Nodup.append ?_ (ih hxs) ?_
    · exact hxs.map (fun a b h => by simpa using h)
    · intro pq hm hp
      obtain ⟨y, _, rfl⟩ := List.mem_map.mp hm
      exact hx (mem_of_mem_allPairs hp).1

theorem fst_injOn_of_nodup_fst {l : List (β × γ)} (h : (l.map Prod.fst).Nodup) :
    ∀ u ∈ l, ∀ v ∈ l, u.1 = v.1 → u = v := by
  induction l with
  | nil => simp
  | cons x xs ih =>
    simp only [List.map_cons, List.nodup_cons] at h
    obtain ⟨hx, hxs⟩ := h
    intro u hu v hv heq
    rcases List.mem_cons.mp hu with rfl | hu2
    · rcases List.mem_cons.mp hv with rfl | hv2
      · rfl
      · exact absurd (heq ▸ List.mem_map_of_mem Prod.fst hv2) hx
    · rcases List.mem_cons.mp hv with rfl | hv2
      · exact absurd (heq ▸ List.mem_map_of_mem Prod.fst hu2) hx
      · exact ih hxs u hu2 v hv2 heq

theorem mem_compute_links_iff {R : ℚ} {alive : List Tank} {hqPos : ℚ × ℚ}
    {a b : PartId} :
    (a, b) ∈ compute_links R alive hqPos ↔
      ∃ u v : PartId × (ℚ × ℚ), List.Sublist [u, v] (linkParts alive hqPos) ∧
        u.1 = a ∧ v.1 = b ∧ inRange R u.2 v.2 = true := by
  unfold compute_links
  rw [List.mem_map]
  constructor
  · rintro ⟨pq, hpq, heq⟩
    rw [List.mem_filter] at hpq
    obtain ⟨rfl, rfl⟩ := Prod.mk.injEq .. ▸ heq
    exact ⟨pq.1, pq.2, mem_allPairs_iff_sublist.mp (by simpa using hpq.1), rfl, rfl, hpq.2⟩
  · rintro ⟨u, v, hs, rfl, rfl, hr⟩
    refine ⟨(u, v), ?_, rfl⟩
    rw [List.mem_filter]
    exact ⟨mem_allPairs_iff_sublist.mpr hs, hr⟩

theorem linkParts_fst_nodup {alive : List Tank} {hqPos : ℚ × ℚ}
    (hnd : (alive.map Tank.idx).Nodup) :
    ((linkParts alive hqPos).map Prod.fst).Nodup := by
  unfold linkParts
  rw [List.map_cons, List.nodup_cons, List.map_map]
  constructor
  · intro hmem
    obtain ⟨t, _, ht⟩ := List.mem_map.mp hmem
    exact PartId.noConfusion ht
  · have : (Prod.fst ∘ fun t : Tank => (PartId.tank t.idx, t.pos)) =
        (fun t : Tank => PartId.tank t.idx) := rfl
    rw [this]
    have : (fun t : Tank => PartId.tank t.idx) = PartId.tank ∘ Tank.idx := rfl
    rw [this, ← List.map_map]
    exact hnd.map (fun a b h => by simpa using h)

theorem inRange_symm (R : ℚ) (p q : ℚ × ℚ) : inRange R p q = inRange R q p := by
  have h : dist2 p q = dist2 q p := by unfold dist2; ring
  rw [inRange, inRange, h]

theorem linkParts_nodup {alive : List Tank} {hqPos : ℚ × ℚ}
    (hnd : (alive.map Tank.idx).Nodup) : (linkParts alive hqPos).Nodup :=
  (linkParts_fst_nodup hnd).of_map

/-- C4: `compute_links` links two participants exactly when their
Euclidean distance is within the communication range `R` — the range test
is symmetric, coincident participants are linked, distance exactly `R` is
linked, distance `R + ε` is not, the HQ participates in the same range
test as any tank (its linkage to a tank is characterized by the identical
`inRange` predicate), and the resulting link set has no duplicate and no
self pairs. -/
theorem compute_links_spec (R e : ℚ) (p q : ℚ × ℚ) (alive : List Tank)
    (hqPos : ℚ × ℚ) (hnd : (alive.map Tank.idx).Nodup) :
    inRange R p q = inRange R q p ∧
    inRange R p p = true ∧
    (dist2 p q = R ^ 2 → inRange R p q = true) ∧
    (0 ≤ R → 0 < e → dist2 p q = (R + e) ^ 2 → inRange R p q = false) ∧
    (∀ a : PartId, (a, a) ∉ compute_links R alive hqPos) ∧
    (compute_links R alive hqPos).Nodup ∧
    (∀ a b : PartId, (a, b) ∈ compute_links R alive hqPos →
        (b, a) ∈ compute_links R alive hqPos → a = b) ∧
    (∀ i : ℕ, ((PartId.hq, PartId.tank i) ∈ compute_links R alive hqPos ∨
        (PartId.tank i, PartId.hq) ∈ compute_links R alive hqPos) ↔
      ∃ t ∈ alive, t.idx = i ∧ inRange R hqPos t.pos = true) ∧
    (∀ i j : ℕ, ((PartId.tank i, PartId.tank j) ∈ compute_links R alive hqPos ∨
        (PartId.tank j, PartId.tank i) ∈ compute_links R alive hqPos) ↔
      i ≠ j ∧ ∃ t ∈ alive, ∃ u ∈ alive, t.idx = i ∧ u.idx = j ∧
        inRange R t.pos u.pos = true) := by
  have hfst := @linkParts_fst_nodup alive hqPos hnd
  have hparts : (linkParts alive hqPos).Nodup := hfst.of_map
  have hinj := fst_injOn_of_nodup_fst hfst
  have hhd : (PartId.hq, hqPos) ∈ linkParts alive hqPos := List.mem_cons_self _ _
  have htl : ∀ t ∈ alive, (PartId.tank t.idx, t.pos) ∈ linkParts alive hqPos := by
    intro t ht
    exact List.mem_cons_of_mem _ (List.mem_map_of_mem _ ht)
  have hresolve : ∀ u ∈ linkParts alive hqPos, ∀ i : ℕ, u.1 = PartId.tank i →
      ∃ t ∈ alive, t.idx = i ∧ u = (PartId.tank t.idx, t.pos) := by
    intro u hu i hui
    rcases List.mem_cons.mp hu with rfl | hu2
    · exact absurd hui (by simp)
    · obtain ⟨t, ht, rfl⟩ := List.mem_map.mp hu2
      exact ⟨t, ht, by simpa using hui, rfl⟩
  refine ⟨inRange_symm R p q, ?_, ?_, ?_, ?_, ?_, ?_, ?_, ?_⟩
  · simp only [inRange, dist2, decide_eq_true_eq]
    nlinarith [sq_nonneg R]
  · intro h
    simp [inRange, h]
  · intro hR he h
    simp only [inRange, h, decide_eq_false_iff_not]
    nlinarith
  · intro a ha
    rw [mem_compute_links_iff] at ha
    obtain ⟨u, v, hs, hu, hv, _⟩ := ha
    have humem : u ∈ linkParts alive hqPos := hs.subset (by simp)
    have hvmem : v ∈ linkParts alive hqPos := hs.subset (by simp)
    have huv : u = v := hinj u humem v hvmem (by rw [hu, hv])
    subst huv
    have : ([u, u] : List (PartId × (ℚ × ℚ))).Nodup := hs.nodup hparts
    simp at this
  · apply List.Nodup.map_on ?_ ((nodup_allPairs hparts).filter _)
    intro pq1 h1 pq2 h2 heq
    rw [List.mem_filter] at h1 h2
    have m1 := mem_of_mem_allPairs h1.1
    have m2 := mem_of_mem_allPairs h2.1
    rw [Prod.ext_iff] at heq
    have e1 : pq1.1 = pq2.1 := hinj _ m1.1 _ m2.1 heq.1
    have e2 : pq1.2 = pq2.2 := hinj _ m1.2 _ m2.2 heq.2
    exact Prod.ext e1 e2
  · intro a b hab hba
    rw [mem_compute_links_iff] at hab hba
    obtain ⟨u, v, hs, hu, hv, _⟩ := hab
    obtain ⟨u2, v2, hs2, hu2, hv2, _⟩ := hba
    have humem : u ∈ linkParts alive hqPos := hs.subset (by simp)
    have hvmem : v ∈ linkParts alive hqPos := hs.subset (by simp)
    have hu2mem : u2 ∈ linkParts alive hqPos := hs2.subset (by simp)
    have hv2mem : v2 ∈ linkParts alive hqPos := hs2.subset (by simp)
    have eu : u2 = v := hinj _ hu2mem _ hvmem (by rw [hu2, hv])
    have ev : v2 = u := hinj _ hv2mem _ humem (by rw [hv2, hu])
    rw [eu, ev] at hs2
    have huv : u = v := pair_sublist_antisymm hparts hs hs2
    rw [← hu, ← hv, huv]
  · intro i
    constructor
    · rintro (h | h) <;> rw [mem_compute_links_iff] at h <;>
        obtain ⟨u, v, hs, hu, hv, hr⟩ := h
      · have hvmem : v ∈ linkParts alive hqPos := hs.subset (by simp)
        obtain ⟨t, ht, hidx, rfl⟩ := hresolve v hvmem i hv
        have humem : u ∈ linkParts alive hqPos := hs.subset (by simp)
        have hueq : u = (PartId.hq, hqPos) := hinj _ humem _ hhd (by rw [hu])
        subst hueq
        exact ⟨t, ht, hidx, hr⟩
      · have humem : u ∈ linkParts alive hqPos := hs.subset (by simp)
        obtain ⟨t, ht, hidx, rfl⟩ := hresolve u humem i hu
        have hvmem : v ∈ linkParts alive hqPos := hs.subset (by simp)
        have hveq : v = (PartId.hq, hqPos) := hinj _ hvmem _ hhd (by rw [hv])
        subst hveq
        rw [inRange_symm] at hr
        exact ⟨t, ht, hidx, hr⟩
    · rintro ⟨t, ht, hidx, hr⟩
      left
      rw [mem_compute_links_iff]
      refine ⟨(PartId.hq, hqPos), (PartId.tank t.idx, t.pos), ?_, rfl, by rw [hidx], hr⟩
      unfold linkParts
      exact (List.singleton_sublist.mpr
        (List.mem_map_of_mem (fun t : Tank => (PartId.tank t.idx, t.pos)) ht)).cons₂ _
  · intro i j
    constructor
    · rintro (h | h) <;> rw [mem_compute_links_iff] at h <;>
        obtain ⟨u, v, hs, hu, hv, hr⟩ := h
      · have humem : u ∈ linkParts alive hqPos := hs.subset (by simp)
        have hvmem : v ∈ linkParts alive hqPos := hs.subset (by simp)
        obtain ⟨t, ht, hti, rfl⟩ := hresolve u humem i hu
        obtain ⟨w, hw, hwj, rfl⟩ := hresolve v hvmem j hv
        refine ⟨?_, t, ht, w, hw, hti, hwj, hr⟩
        intro hij
        have : (PartId.tank t.idx, t.pos) = (PartId.tank w.idx, w.pos) :=
          hinj _ humem _ hvmem (by simp [hti, hwj, hij])
        have hnd2 : ([(PartId.tank t.idx, t.pos),
            (PartId.tank w.idx, w.pos)] : List (PartId × (ℚ × ℚ))).Nodup := hs.nodup hparts
        simp [this] at hnd2
      · have humem : u ∈ linkParts alive hqPos := hs.subset (by simp)
        have hvmem : v ∈ linkParts alive hqPos := hs.subset (by simp)
        obtain ⟨t, ht, htj, rfl⟩ := hresolve u humem j hu
        obtain ⟨w, hw, hwi, rfl⟩ := hresolve v hvmem i hv
        rw [inRange_symm] at hr
        refine ⟨?_, w, hw, t, ht, hwi, htj, hr⟩
        intro hij
        have : (PartId.tank t.idx, t.pos) = (PartId.tank w.idx, w.pos) :=
          hinj _ humem _ hvmem (by simp [htj, hwi, hij])
        have hnd2 : ([(PartId.tank t.idx, t.pos),
            (PartId.tank w.idx, w.pos)] : List (PartId × (ℚ × ℚ))).Nodup := hs.nodup hparts
        simp [this] at hnd2
    · rintro ⟨hij, t, ht, u, hu, hti, huj, hr⟩
      have hne : (PartId.tank t.idx, t.pos) ≠ (PartId.tank u.idx, u.pos) := by
        intro hcon
        rw [Prod.ext_iff] at hcon
        simp only [PartId.tank.injEq] at hcon
        exact hij (hti ▸ huj ▸ hcon.1)
      rcases sublist_pair_of_mem hne (htl t ht) (htl u hu) with hs | hs
      · left
        rw [mem_compute_links_iff]
        exact ⟨_, _, hs, by rw [hti], by rw [huj], hr⟩
      · right
        rw [mem_compute_links_iff]
        refine ⟨_, _, hs, by rw [huj], by rw [hti], ?_⟩
        rw [inRange_symm] at hr
        exact hr

/-- Witness for C4: two tanks at positions `(0,0)` and `(3,4)` — distance
exactly `R = 5` — are linked by `compute_links`. -/
theorem compute_links_spec_witness :
    (PartId.tank 0, PartId.tank 1) ∈
        compute_links 5 [⟨0, (0, 0), true⟩, ⟨1, (3, 4), true⟩] (50, 50) ∨
      (PartId.tank 1, PartId.tank 0) ∈
        compute_links 5 [⟨0, (0, 0), true⟩, ⟨1, (3, 4), true⟩] (50, 50) :=
  ((compute_links_spec 5 1 ((0 : ℚ), (0 : ℚ)) ((3 : ℚ), (4 : ℚ))
      [⟨0, (0, 0), true⟩, ⟨1, (3, 4), true⟩] (50, 50)
      (by simp)).2.2.2.2.2.2.2.2 0 1).mpr
    ⟨by simp, ⟨0, (0, 0), true⟩, List.mem_cons_self _ _,
      ⟨1, (3, 4), true⟩, List.mem_cons_of_mem _ (List.mem_cons_self _ _),
      rfl, rfl, by norm_num [inRange, dist2]⟩

/-- C10: for every tuple of numeric input-field values, the `set_params`
request body built by the dashboard's `applyParameters` carries `sigmas`
as the `parseInt`-truncated integers of the sigma-x and sigma-y fields and
`nb_tanks` as a truncated integer, while `max_step_size` is parsed as a
real by `parseFloat`; in particular each sigma the engine receives from
this client has denominator `1`, i.e. is an integer. -/
theorem applyParameters_truncates_sigmas (nbv msv sxv syv : ℚ) :
    (Dashboard.applyParameters nbv msv sxv syv).nb_tanks = (Dashboard.jsParseInt nbv : ℚ) ∧
    (Dashboard.applyParameters nbv msv sxv syv).max_step_size = msv ∧
    (Dashboard.applyParameters nbv msv sxv syv).sigmas =
      ((Dashboard.jsParseInt sxv : ℚ), (Dashboard.jsParseInt syv : ℚ)) ∧
    (Dashboard.applyParameters nbv msv sxv syv).nb_tanks.den = 1 ∧
    (Dashboard.applyParameters nbv msv sxv syv).sigmas.1.den = 1 ∧
    (Dashboard.applyParameters nbv msv sxv syv).sigmas.2.den = 1 ∧
    Dashboard.jsParseInt (7 / 2 : ℚ) = 3 ∧ Dashboard.jsParseInt (-7 / 2 : ℚ) = -3 := by
  refine ⟨rfl, rfl, rfl, ?_, ?_, ?_, ?_, ?_⟩
  · simp [Dashboard.applyParameters]
  · simp [Dashboard.applyParameters]
  · simp [Dashboard.applyParameters]
  · norm_num [Dashboard.jsParseInt]
  · norm_num [Dashboard.jsParseInt]
    norm_num [Int.ceil_eq_iff]

/-! ### Snapshot link translation (C2) -/

theorem idxOf?_lt_length {p : α → Bool} :
    ∀ {l : List α} {i : ℕ}, idxOf? p l = some i → i < l.length := by
  intro l
  induction l with
  | nil => intro i h; simp [idxOf?] at h
  | cons a t ih =>
    intro i h
    by_cases hp : p a
    · rw [idxOf?, if_pos hp] at h
      cases h
      simp
    · rw [idxOf?, if_neg hp] at h
      obtain ⟨j, hj, rfl⟩ := Option.map_eq_some'.mp h
      have := ih hj
      simp only [List.length_cons]
      omega

theorem linkToPos_lt {tks : List Tank} {pr : PartId × PartId} {ij : ℕ × ℕ}
    (h : linkToPos tks pr = some ij) : ij.1 < tks.length ∧ ij.2 < tks.length := by
  obtain ⟨a, b⟩ := pr
  cases a with
  | hq => simp [linkToPos] at h
  | tank i =>
    cases b with
    | hq => simp [linkToPos] at h
    | tank j =>
      rcases h1 : idxOf? (fun t => t.idx == i) tks with _ | x
      · rw [linkToPos, h1] at h
        simp at h
      · rcases h2 : idxOf? (fun t => t.idx == j) tks with _ | y
        · rw [linkToPos, h1, h2] at h
          simp at h
        · rw [linkToPos, h1, h2] at h
          obtain rfl : (x, y) = ij := by simpa using h
          exact ⟨idxOf?_lt_length h1, idxOf?_lt_length h2⟩

/-- C2: every pair in the `links` of a published snapshot, used as
positional indices into the snapshot's `tanks` sequence (as the
frontend's `drawLinks` does), resolves to two existing tank entries — the
snapshot layer translates the engine's stable-identity links to positions
in the alive-only sequence, so positional references remain valid even
when dead tanks are removed from the sequence. -/
theorem publish_links_resolve (st : EngineState) :
    linkIndexCheck (publish st) = true := by
  rw [linkIndexCheck, List.all_eq_true]
  intro pr hpr
  simp only [publish, List.mem_filterMap] at hpr
  obtain ⟨lnk, hlnk, hsome⟩ := hpr
  have hlt := linkToPos_lt hsome
  simp only [publish, Bool.and_eq_true, decide_eq_true_eq]
  exact hlt

/-! ### Link-alive invariant (C1) -/

theorem runEvents_inv {P : EngineState → Prop}
    (hstep : ∀ st e, P st → P (applyEvent st e)) :
    ∀ (evs : List Event) (st : EngineState), P st → P (runEvents st evs)
  | [], _, h => h
  | e :: es, st, h => runEvents_inv hstep es _ (hstep st e h)

theorem compute_links_sides {R : ℚ} {alive : List Tank} {hqPos : ℚ × ℚ}
    {pr : PartId × PartId} (h : pr ∈ compute_links R alive hqPos) :
    (pr.1 = PartId.hq ∨ ∃ t ∈ alive, pr.1 = PartId.tank t.idx) ∧
    (pr.2 = PartId.hq ∨ ∃ t ∈ alive, pr.2 = PartId.tank t.idx) := by
  obtain ⟨a, b⟩ := pr
  rw [mem_compute_links_iff] at h
  obtain ⟨u, v, hs, hu, hv, _⟩ := h
  have hum : u ∈ linkParts alive hqPos := hs.subset (by simp)
  have hvm : v ∈ linkParts alive hqPos := hs.subset (by simp)
  simp only [linkParts, List.mem_cons, List.mem_map] at hum hvm
  constructor
  · rcases hum with rfl | ⟨t, ht, rfl⟩
    · exact Or.inl (by rw [← hu])
    · exact Or.inr ⟨t, ht, by rw [← hu]⟩
  · rcases hvm with rfl | ⟨t, ht, rfl⟩
    · exact Or.inl (by rw [← hv])
    · exact Or.inr ⟨t, ht, by rw [← hv]⟩

theorem any_alive_map_kill {tks : List Tank} {i j : ℕ} (hij : j ≠ i)
    (h : tks.any (fun t => t.idx == j && t.alive) = true) :
    (tks.map (fun t => if t.idx = i then { t with alive := false } else t)).any
      (fun t => t.idx == j && t.alive) = true := by
  rw [List.any_eq_true] at h ⊢
  obtain ⟨t, ht, hcond⟩ := h
  simp only [Bool.and_eq_true, beq_iff_eq] at hcond
  refine ⟨if t.idx = i then { t with alive := false } else t, List.mem_map_of_mem _ ht, ?_⟩
  rw [if_neg (by rw [hcond.1]; exact hij)]
  simp [hcond.1, hcond.2]

theorem LinksOk_applyEvent (st : EngineState) (e : Event) (h : LinksOk st) :
    LinksOk (applyEvent st e) := by
  cases e with
  | tick =>
    show LinksOk (tick st)
    cases hrs : st.runState with
    | STOPPED =>
      rw [tick, hrs]
      exact h
    | RUNNING =>
      rw [tick, hrs]
      intro pr hpr
      have hsides := compute_links_sides hpr
      constructor
      · rcases hsides.1 with he | ⟨t, ht, he⟩
        · rw [he]; rfl
        · rw [he]
          rw [List.mem_filter] at ht
          simp only [partAlive, List.any_eq_true]
          exact ⟨t, ht.1, by simp [ht.2]⟩
      · rcases hsides.2 with he | ⟨t, ht, he⟩
        · rw [he]; rfl
        · rw [he]
          rw [List.mem_filter] at ht
          simp only [partAlive, List.any_eq_true]
          exact ⟨t, ht.1, by simp [ht.2]⟩
  | command c =>
    cases c with
    | start =>
      intro pr hpr
      have := h pr hpr
      exact this
    | stop =>
      intro pr hpr
      exact h pr hpr
    | reset =>
      intro pr hpr
      simp [applyEvent, applyCommand, initState] at hpr
    | set_params p =>
      by_cases hv : validParams p
      · intro pr hpr
        simp [applyEvent, applyCommand, hv, initState] at hpr
      · show LinksOk (applyCommand st (.set_params p))
        rw [applyCommand, if_neg hv]
        exact h
    | kill_tank i =>
      show LinksOk (killTank st i)
      rw [killTank]
      by_cases hc : st.tanks.any (fun t => t.idx == i && t.alive) = true
      · rw [if_pos hc]
        intro pr hpr
        rw [List.mem_filter] at hpr
        obtain ⟨hmem, hnr⟩ := hpr
        have href : ¬(pr.1 = PartId.tank i ∨ pr.2 = PartId.tank i) := by
          simpa [refersTank] using hnr
        have hold := h pr hmem
        constructor
        · cases hx : pr.1 with
          | hq => rfl
          | tank j =>
            have hji : j ≠ i := by
              intro hcon
              exact href (Or.inl (by rw [hx, hcon]))
            have := hold.1
            rw [hx] at this
            simp only [partAlive] at this ⊢
            exact any_alive_map_kill hji this
        · cases hx : pr.2 with
          | hq => rfl
          | tank j =>
            have hji : j ≠ i := by
              intro hcon
              exact href (Or.inr (by rw [hx, hcon]))
            have := hold.2
            rw [hx] at this
            simp only [partAlive] at this ⊢
            exact any_alive_map_kill hji this
      · rw [if_neg hc]
        exact h

/-- C1: in every reachable state — after any sequence of ticks and
commands from initialization — every stored link references two
currently-alive participants; no link ever references a tank whose
`alive` flag is false, because links are recomputed from the alive
population and never independently kept across a kill. -/
theorem links_reference_alive (p : Params) (seed : ℕ) (evs : List Event) :
    linksAliveCheck (runEvents (initState p seed) evs) = true := by
  have hrun : LinksOk (runEvents (initState p seed) evs) := by
    refine runEvents_inv LinksOk_applyEvent evs _ ?_
    intro pr hpr
    simp [initState] at hpr
  rw [linksAliveCheck, List.all_eq_true]
  intro pr hpr
  have hp := hrun pr hpr
  simp [hp.1, hp.2]

/-! ### Mobility bounds (C3) -/

theorem clampCoord_nonneg (m : ℕ) (x : ℚ) : 0 ≤ clampCoord m x := le_max_left 0 _

theorem clampCoord_le_sub_one {m : ℕ} (hm : (0 : ℚ) ≤ (m : ℚ) - 1) (x : ℚ) :
    clampCoord m x ≤ (m : ℚ) - 1 := max_le hm (min_le_right _ _)

theorem clampCoord_sub_sq_le {m : ℕ} {x d : ℚ} (h0 : 0 ≤ x) (h1 : x ≤ (m : ℚ) - 1) :
    (clampCoord m (x + d) - x) ^ 2 ≤ d ^ 2 := by
  unfold clampCoord
  rcases le_total (x + d) ((m : ℚ) - 1) with hmin | hmin
  · rw [min_eq_left hmin]
    rcases le_total 0 (x + d) with hmax | hmax
    · rw [max_eq_right hmax]
      have he : x + d - x = d := by ring
      rw [he]
    · rw [max_eq_left hmax]
      nlinarith
  · rw [min_eq_right hmin]
    rw [max_eq_right (le_trans h0 h1)]
    nlinarith

theorem move_dist_le {b dx dy x y : ℚ} (hd : dx ^ 2 + dy ^ 2 ≤ b ^ 2)
    (hx0 : 0 ≤ x) (hx1 : x ≤ (mapW : ℚ) - 1) (hy0 : 0 ≤ y) (hy1 : y ≤ (mapH : ℚ) - 1) :
    dist2 (x, y) (clampCoord mapW (x + dx), clampCoord mapH (y + dy)) ≤ b ^ 2 := by
  have h1 := clampCoord_sub_sq_le (m := mapW) hx0 hx1 (d := dx)
  have h2 := clampCoord_sub_sq_le (m := mapH) hy0 hy1 (d := dy)
  unfold dist2
  nlinarith [h1, h2]

theorem inBoundsB_of_bounds {x y : ℚ} (h1 : 0 ≤ x) (h2 : x ≤ (mapW : ℚ) - 1)
    (h3 : 0 ≤ y) (h4 : y ≤ (mapH : ℚ) - 1) : inBoundsB mapW mapH (x, y) = true := by
  have hw : ((mapW : ℕ) : ℚ) - 1 < (mapW : ℚ) := by linarith
  have hh : ((mapH : ℕ) : ℚ) - 1 < (mapH : ℚ) := by linarith
  simp only [inBoundsB, Bool.and_eq_true, decide_eq_true_eq]
  exact ⟨⟨⟨h1, lt_of_le_of_lt h2 hw⟩, h3⟩, lt_of_le_of_lt h4 hh⟩

theorem inBoundsB_of_posInClamp {t : Tank} (h : posInClampT t) :
    inBoundsB mapW mapH t.pos = true := by
  obtain ⟨h1, h2, h3, h4⟩ := h
  have hp : t.pos = (t.pos.1, t.pos.2) := rfl
  rw [hp]
  exact inBoundsB_of_bounds h1 h2 h3 h4

theorem moveTank_moveOk {b : ℚ} {t : Tank} {r : ℕ} (ht : posInClampT t) :
    moveOk b t (moveTank mapW mapH b t r).1 = true := by
  obtain ⟨hx0, hx1, hy0, hy1⟩ := ht
  cases ha : t.alive with
  | false => simp [moveTank, moveOk, ha]
  | true =>
    simp only [moveTank, ha, if_true]
    set dx := b * (2 * unit01 (lcgNext r) - 1) with hdx
    set dy := b * (2 * unit01 (lcgNext (lcgNext r)) - 1) with hdy
    have hdist : dist2 (dx, dy) ((0 : ℚ), (0 : ℚ)) = dx ^ 2 + dy ^ 2 := by
      simp [dist2]
    set d : ℚ × ℚ := if dist2 (dx, dy) ((0 : ℚ), (0 : ℚ)) ≤ b ^ 2 then (dx, dy)
      else ((0 : ℚ), (0 : ℚ)) with hd
    have hdle : d.1 ^ 2 + d.2 ^ 2 ≤ b ^ 2 := by
      by_cases hc : dist2 (dx, dy) ((0 : ℚ), (0 : ℚ)) ≤ b ^ 2
      · rw [hd, if_pos hc]
        rw [hdist] at hc
        exact hc
      · rw [hd, if_neg hc]
        have hz : ((0 : ℚ), (0 : ℚ)).1 ^ 2 + ((0 : ℚ), (0 : ℚ)).2 ^ 2 = 0 := by norm_num
        rw [hz]
        positivity
    simp only [moveOk, ha, if_true, Bool.and_eq_true, beq_iff_eq, decide_eq_true_eq]
    refine ⟨⟨⟨by simp, by simp [ha]⟩, ?_⟩, ?_⟩
    · have hp : t.pos = (t.pos.1, t.pos.2) := rfl
      rw [hp]
      exact move_dist_le hdle hx0 hx1 hy0 hy1
    · exact inBoundsB_of_bounds (clampCoord_nonneg _ _)
        (clampCoord_le_sub_one (by norm_num [mapW]) _)
        (clampCoord_nonneg _ _) (clampCoord_le_sub_one (by norm_num [mapH]) _)

theorem moveTank_posInClamp {b : ℚ} {t : Tank} {r : ℕ} (ht : posInClampT t) :
    posInClampT (moveTank mapW mapH b t r).1 := by
  cases ha : t.alive with
  | false => simpa [moveTank, ha] using ht
  | true =>
    simp only [moveTank, ha, if_true]
    exact ⟨clampCoord_nonneg _ _, clampCoord_le_sub_one (by norm_num [mapW]) _,
      clampCoord_nonneg _ _, clampCoord_le_sub_one (by norm_num [mapH]) _⟩

theorem stepTanks_moveAllOk {b : ℚ} :
    ∀ {ts : List Tank} {rng : ℕ}, (∀ t ∈ ts, posInClampT t) →
      moveAllOk b ts (stepTanks mapW mapH b ts rng).1 = true := by
  intro ts
  induction ts with
  | nil => intro rng _; rfl
  | cons t ts ih =>
    intro rng h
    show (moveOk b t (moveTank mapW mapH b t rng).1 &&
      moveAllOk b ts (stepTanks mapW mapH b ts (moveTank mapW mapH b t rng).2).1) = true
    rw [Bool.and_eq_true]
    exact ⟨moveTank_moveOk (h t (List.mem_cons_self _ _)),
      ih (fun u hu => h u (List.mem_cons_of_mem _ hu))⟩

theorem stepTanks_mem_shape {w h : ℕ} {b : ℚ} :
    ∀ {ts : List Tank} {rng : ℕ} {u : Tank}, u ∈ (stepTanks w h b ts rng).1 →
      ∃ t ∈ ts, ∃ r : ℕ, u = (moveTank w h b t r).1 := by
  intro ts
  induction ts with
  | nil => intro rng u hu; simp [stepTanks] at hu
  | cons t ts ih =>
    intro rng u hu
    rcases List.mem_cons.mp hu with rfl | hu2
    · exact ⟨t, List.mem_cons_self _ _, rng, rfl⟩
    · obtain ⟨t2, ht2, r, hr⟩ := ih hu2
      exact ⟨t2, List.mem_cons_of_mem _ ht2, r, hr⟩

theorem randCoord_bounds {m : ℕ} (hm : 1 ≤ m) (s : ℕ) :
    0 ≤ randCoord m s ∧ randCoord m s ≤ (m : ℚ) - 1 := by
  have hm1 : (0 : ℚ) ≤ (m : ℚ) - 1 := by
    have : (1 : ℚ) ≤ (m : ℚ) := by exact_mod_cast hm
    linarith
  constructor
  · exact mul_nonneg (unit01_nonneg s) hm1
  · have := mul_le_mul_of_nonneg_right (le_of_lt (unit01_lt_one s)) hm1
    simpa [randCoord] using this

theorem initTanksAux_mem_posInClamp :
    ∀ {n s rng : ℕ} {t : Tank}, t ∈ (initTanksAux mapW mapH s n rng).1 → posInClampT t := by
  intro n
  induction n with
  | zero => intro s rng t ht; simp [initTanksAux] at ht
  | succ n ih =>
    intro s rng t ht
    rcases List.mem_cons.mp ht with rfl | ht2
    · have h1 := randCoord_bounds (m := mapW) (by norm_num [mapW]) (lcgNext rng)
      have h2 := randCoord_bounds (m := mapH) (by norm_num [mapH]) (lcgNext (lcgNext rng))
      exact ⟨h1.1, h1.2, h2.1, h2.2⟩
    · exact ih ht2

theorem PosOk_initState (p : Params) (seed : ℕ) : PosOk (initState p seed) := by
  intro t ht
  exact initTanksAux_mem_posInClamp ht

theorem PosOk_applyEvent (st : EngineState) (e : Event) (h : PosOk st) :
    PosOk (applyEvent st e) := by
  cases e with
  | tick =>
    show PosOk (tick st)
    cases hrs : st.runState with
    | STOPPED =>
      rw [tick, hrs]
      exact h
    | RUNNING =>
      rw [tick, hrs]
      intro u hu
      obtain ⟨t, ht, r, rfl⟩ := stepTanks_mem_shape hu
      exact moveTank_posInClamp (h t ht)
  | command c =>
    cases c with
    | start => intro t ht; exact h t ht
    | stop => intro t ht; exact h t ht
    | reset => exact PosOk_initState st.params st.rng
    | set_params p =>
      by_cases hv : validParams p
      · show PosOk (applyCommand st (.set_params p))
        rw [applyCommand, if_pos hv]
        exact PosOk_initState p st.rng
      · show PosOk (applyCommand st (.set_params p))
        rw [applyCommand, if_neg hv]
        exact h
    | kill_tank i =>
      show PosOk (killTank st i)
      rw [killTank]
      by_cases hc : st.tanks.any (fun t => t.idx == i && t.alive) = true
      · rw [if_pos hc]
        intro u hu
        obtain ⟨t, ht, rfl⟩ := List.mem_map.mp hu
        have hp := h t ht
        by_cases hti : t.idx = i
        · rw [if_pos hti]
          exact hp
        · rw [if_neg hti]
          exact hp
      · rw [if_neg hc]
        exact h

/-- C3: in every reachable state, every tank position lies within
`[0,width)×[0,height)`, and the mobility update a tick applies displaces
each alive tank by a perturbation of Euclidean magnitude at most
`max_step_size` (leaving it in bounds with the same identity and alive
flag) while skipping dead tanks entirely; in particular after one tick
with `max_step_size = 2.0` every tank has moved by at most `2.0`. -/
theorem mobility_bounded_and_in_bounds (p : Params) (seed : ℕ) (evs : List Event) :
    posCheck (runEvents (initState p seed) evs) = true ∧
    stepCheck (runEvents (initState p seed) evs) = true := by
  have hrun : PosOk (runEvents (initState p seed) evs) :=
    runEvents_inv PosOk_applyEvent evs _ (PosOk_initState p seed)
  constructor
  · rw [posCheck, List.all_eq_true]
    intro t ht
    exact inBoundsB_of_posInClamp (hrun t ht)
  · exact stepTanks_moveAllOk hrun

/-! ### Control surface: stop / tick step counter (C5) -/

/-- C5: while RUNNING a tick increments `step` by exactly one and while
STOPPED a tick changes nothing (in particular `step`); the `stop` command
moves the state machine to STOPPED without touching `step`, the tanks,
the links, the terrain, the HQ, the targets or the parameters, is the
identity when already STOPPED, and is idempotent. -/
theorem step_and_stop_semantics (st : EngineState) :
    (tick st).step = (if st.runState = RunState.RUNNING then st.step + 1 else st.step) ∧
    (st.runState = RunState.RUNNING → (tick st).step = st.step + 1) ∧
    (st.runState = RunState.STOPPED → tick st = st) ∧
    (applyCommand st Command.stop).runState = RunState.STOPPED ∧
    (applyCommand st Command.stop).step = st.step ∧
    (applyCommand st Command.stop).tanks = st.tanks ∧
    (applyCommand st Command.stop).links = st.links ∧
    (applyCommand st Command.stop).altitude = st.altitude ∧
    (applyCommand st Command.stop).hq = st.hq ∧
    (applyCommand st Command.stop).targets = st.targets ∧
    (applyCommand st Command.stop).params = st.params ∧
    (st.runState = RunState.STOPPED → applyCommand st Command.stop = st) ∧
    applyCommand (applyCommand st Command.stop) Command.stop =
      applyCommand st Command.stop := by
  refine ⟨?_, ?_, ?_, rfl, rfl, rfl, rfl, rfl, rfl, rfl, rfl, ?_, rfl⟩
  · cases hrs : st.runState <;> simp [tick, hrs]
  · intro h
    simp [tick, h]
  · intro h
    simp [tick, h]
  · intro h
    show ({ st with runState := RunState.STOPPED } : EngineState) = st
    rw [← h]

/-- Witness for C5 at the freshly initialized state (STOPPED) and after a
`start` (RUNNING). -/
theorem step_and_stop_semantics_witness :
    tick (initState ⟨1, 1, 1, 1⟩ 0) = initState ⟨1, 1, 1, 1⟩ 0 ∧
    (tick (applyCommand (initState ⟨1, 1, 1, 1⟩ 0) Command.start)).step =
      (applyCommand (initState ⟨1, 1, 1, 1⟩ 0) Command.start).step + 1 ∧
    applyCommand (initState ⟨1, 1, 1, 1⟩ 0) Command.stop = initState ⟨1, 1, 1, 1⟩ 0 :=
  ⟨(step_and_stop_semantics _).2.2.1 rfl,
   (step_and_stop_semantics _).2.1 rfl,
   (step_and_stop_semantics _).2.2.2.2.2.2.2.2.2.2.2.1 rfl⟩

/-! ### Control surface: reset (C6) -/

theorem initTanksAux_length {w h : ℕ} :
    ∀ (n s rng : ℕ), (initTanksAux w h s n rng).1.length = n := by
  intro n
  induction n with
  | zero => intro s rng; rfl
  | succ n ih =>
    intro s rng
    simp [initTanksAux, ih]

theorem initTanksAux_alive {w h : ℕ} :
    ∀ {n s rng : ℕ}, ∀ t ∈ (initTanksAux w h s n rng).1, t.alive = true := by
  intro n
  induction n with
  | zero => intro s rng t ht; simp [initTanksAux] at ht
  | succ n ih =>
    intro s rng t ht
    rcases List.mem_cons.mp ht with rfl | ht2
    · rfl
    · exact ih t ht2

/-- C6: from any state, `reset` yields STOPPED with `step = 0`,
regenerates terrain, HQ and targets from the current Parameters (and a
fresh seed drawn from the engine's PRNG state), recreates exactly
`nb_tanks` tanks all alive, and clears the link set. -/
theorem reset_semantics (st : EngineState) :
    (applyCommand st Command.reset).runState = RunState.STOPPED ∧
    (applyCommand st Command.reset).step = 0 ∧
    (applyCommand st Command.reset).links = [] ∧
    (applyCommand st Command.reset).params = st.params ∧
    (applyCommand st Command.reset).tanks.length = st.params.nb_tanks ∧
    (applyCommand st Command.reset).tanks.all (fun t => t.alive) = true ∧
    (applyCommand st Command.reset).altitude = TerrainField.generate mapW mapH
      (radOf st.params.sigmaX) (radOf st.params.sigmaY) st.rng ∧
    (applyCommand st Command.reset).hq = ((mapW : ℚ) / 2, (mapH : ℚ) / 2) ∧
    (applyCommand st Command.reset).targets =
      (genPoints mapW mapH nbTargets (lcgNext st.rng)).1 := by
  refine ⟨rfl, rfl, rfl, rfl, initTanksAux_length _ _ _, ?_, rfl, rfl, rfl⟩
  rw [List.all_eq_true]
  intro t ht
  exact initTanksAux_alive t ht

/-! ### Control surface: set_params validation (C7) -/

/-- C7: `set_params` accepts exactly the inputs with `nb_tanks > 0`,
`max_step_size ≥ 0` and both sigma components `> 0`; an invalid input
(for example `nb_tanks = 0` or `max_step_size < 0`) is rejected and the
prior simulation state is left byte-for-byte unchanged, while a valid
input atomically replaces the Parameters and performs the equivalent of a
reset. -/
theorem set_params_semantics (st : EngineState) (p : Params) :
    (validParams p = true ↔
      0 < p.nb_tanks ∧ 0 ≤ p.max_step_size ∧ 0 < p.sigmaX ∧ 0 < p.sigmaY) ∧
    (validParams p = false → applyCommand st (Command.set_params p) = st) ∧
    (validParams p = true → applyCommand st (Command.set_params p) = initState p st.rng) ∧
    validParams ⟨0, p.max_step_size, p.sigmaX, p.sigmaY⟩ = false ∧
    (p.max_step_size < 0 → validParams p = false) := by
  refine ⟨?_, ?_, ?_, ?_, ?_⟩
  · simp [validParams, and_assoc]
  · intro h
    show (if validParams p then initState p st.rng else st) = st
    rw [if_neg (by simp [h])]
  · intro h
    show (if validParams p then initState p st.rng else st) = initState p st.rng
    rw [if_pos (by simp [h])]
  · simp [validParams]
  · intro h
    have hn : ¬((0 : ℚ) ≤ p.max_step_size) := not_le.mpr h
    simp [validParams, hn]

/-- Witness for C7: rejected `set_params` with `nb_tanks = 0` and with
`max_step_size = -1` both leave the state unchanged. -/
theorem set_params_semantics_witness :
    applyCommand (initState ⟨1, 1, 1, 1⟩ 0) (Command.set_params ⟨0, 1, 1, 1⟩) =
      initState ⟨1, 1, 1, 1⟩ 0 ∧
    applyCommand (initState ⟨1, 1, 1, 1⟩ 0) (Command.set_params ⟨3, -1, 1, 1⟩) =
      initState ⟨1, 1, 1, 1⟩ 0 :=
  ⟨(set_params_semantics _ _).2.1 (by decide),
   (set_params_semantics _ _).2.1
     ((set_params_semantics (initState ⟨1, 1, 1, 1⟩ 0) ⟨3, -1, 1, 1⟩).2.2.2.2
       (by norm_num))⟩

/-! ### Control surface: kill_tank (C8) -/

theorem moveTank_idx (w h : ℕ) (b : ℚ) (t : Tank) (r : ℕ) :
    (moveTank w h b t r).1.idx = t.idx := by
  cases ha : t.alive <;> simp [moveTank, ha]

theorem moveTank_alive (w h : ℕ) (b : ℚ) (t : Tank) (r : ℕ) :
    (moveTank w h b t r).1.alive = t.alive := by
  cases ha : t.alive <;> simp [moveTank, ha]

theorem any_alive_iff {tks : List Tank} {i : ℕ} :
    tks.any (fun t => t.idx == i && t.alive) = true ↔
      ∃ t ∈ tks, t.idx = i ∧ t.alive = true := by
  simp [List.any_eq_true]

theorem killTank_noop (st2 : EngineState) (j : ℕ)
    (hd : ∀ t ∈ st2.tanks, t.idx = j → t.alive = false) : killTank st2 j = st2 := by
  have hc : ¬(st2.tanks.any (fun t => t.idx == j && t.alive) = true) := by
    intro hc
    obtain ⟨t, ht, hj, ha⟩ := any_alive_iff.mp hc
    rw [hd t ht hj] at ha
    simp at ha
  rw [killTank, if_neg hc]

theorem dead_noRef_applyEvent (st : EngineState) (i : ℕ) (e : Event)
    (hpop : preservesPop e = true)
    (hdead : ∀ t ∈ st.tanks, t.idx = i → t.alive = false)
    (hnoRef : ∀ pr ∈ st.links, refersTank pr i = false) :
    (∀ t ∈ (applyEvent st e).tanks, t.idx = i → t.alive = false) ∧
    (∀ pr ∈ (applyEvent st e).links, refersTank pr i = false) := by
  cases e with
  | tick =>
    show (∀ t ∈ (tick st).tanks, t.idx = i → t.alive = false) ∧
      (∀ pr ∈ (tick st).links, refersTank pr i = false)
    cases hrs : st.runState with
    | STOPPED =>
      have key : tick st = st := by simp [tick, hrs]
      rw [key]
      exact ⟨hdead, hnoRef⟩
    | RUNNING =>
      have key : tick st = { st with
          tanks := (stepTanks mapW mapH st.params.max_step_size st.tanks st.rng).1,
          rng := (stepTanks mapW mapH st.params.max_step_size st.tanks st.rng).2,
          links := compute_links commRange
            ((stepTanks mapW mapH st.params.max_step_size st.tanks st.rng).1.filter
              (fun t => t.alive)) st.hq,
          step := st.step + 1 } := by
        simp [tick, hrs]
      rw [key]
      constructor
      · intro u hu hui
        obtain ⟨t, ht, r, rfl⟩ := stepTanks_mem_shape hu
        rw [moveTank_alive]
        rw [moveTank_idx] at hui
        exact hdead t ht hui
      · intro pr hpr
        by_cases hr : refersTank pr i = true
        · exfalso
          have hsides := compute_links_sides hpr
          have hr2 : pr.1 = PartId.tank i ∨ pr.2 = PartId.tank i := by
            simpa [refersTank] using hr
          have key2 : ∀ x : PartId, (x = PartId.hq ∨
              ∃ t ∈ (stepTanks mapW mapH st.params.max_step_size st.tanks st.rng).1.filter
                (fun t => t.alive), x = PartId.tank t.idx) →
              x = PartId.tank i → False := by
            rintro x (hx | ⟨t, ht, hx⟩) hxi
            · rw [hxi] at hx
              simp at hx
            · rw [List.mem_filter] at ht
              obtain ⟨t0, ht0, r, rfl⟩ := stepTanks_mem_shape ht.1
              have halive := ht.2
              rw [moveTank_alive] at halive
              rw [hxi] at hx
              have hidx : (moveTank mapW mapH st.params.max_step_size t0 r).1.idx = i := by
                have := hx.symm
                simpa using this
              rw [moveTank_idx] at hidx
              rw [hdead t0 ht0 hidx] at halive
              simp at halive
          rcases hr2 with h1 | h1
          · exact key2 pr.1 hsides.1 h1
          · exact key2 pr.2 hsides.2 h1
        · cases hb : refersTank pr i with
          | false => rfl
          | true => exact absurd hb hr
  | command c =>
    cases c with
    | start => exact ⟨hdead, hnoRef⟩
    | stop => exact ⟨hdead, hnoRef⟩
    | reset => simp [preservesPop] at hpop
    | set_params p => simp [preservesPop] at hpop
    | kill_tank j =>
      show (∀ t ∈ (killTank st j).tanks, t.idx = i → t.alive = false) ∧
        (∀ pr ∈ (killTank st j).links, refersTank pr i = false)
      rw [killTank]
      by_cases hc : st.tanks.any (fun t => t.idx == j && t.alive) = true
      · rw [if_pos hc]
        constructor
        · intro u hu hui
          obtain ⟨t, ht, rfl⟩ := List.mem_map.mp hu
          by_cases htj : t.idx = j
          · rw [if_pos htj]
          · rw [if_neg htj] at hui ⊢
            exact hdead t ht hui
        · intro pr hpr
          rw [List.mem_filter] at hpr
          exact hnoRef pr hpr.1
      · rw [if_neg hc]
        exact ⟨hdead, hnoRef⟩

theorem dead_noRef_runEvents (i : ℕ) :
    ∀ (evs : List Event), (∀ e ∈ evs, preservesPop e = true) →
      ∀ st : EngineState, (∀ t ∈ st.tanks, t.idx = i → t.alive = false) →
        (∀ pr ∈ st.links, refersTank pr i = false) →
        (∀ t ∈ (runEvents st evs).tanks, t.idx = i → t.alive = false) ∧
        (∀ pr ∈ (runEvents st evs).links, refersTank pr i = false) := by
  intro evs
  induction evs with
  | nil => intro _ st h1 h2; exact ⟨h1, h2⟩
  | cons e es ih =>
    intro hall st h1 h2
    have he := dead_noRef_applyEvent st i e (hall e (List.mem_cons_self _ _)) h1 h2
    exact ih (fun x hx => hall x (List.mem_cons_of_mem _ hx)) _ he.1 he.2

/-- C8: `kill_tank` on a live identity marks exactly the tank with that
stable identity not-alive — the population keeps its length and every
other entry is untouched, so no identity is shifted or renumbered — and
drops exactly the links referencing it; the identity stays dead (and
absent from all future published `tanks` sequences and from all link
sets) under every later tick and non-reset command; repeating the kill,
or killing an unknown or already-dead identity, is a no-op that changes
nothing. -/
theorem kill_tank_semantics (st : EngineState) (i : ℕ)
    (h : ∃ t ∈ st.tanks, t.idx = i ∧ t.alive = true) :
    (killTank st i).tanks =
      st.tanks.map (fun t => if t.idx = i then { t with alive := false } else t) ∧
    (killTank st i).tanks.length = st.tanks.length ∧
    (∀ t ∈ st.tanks, t.idx ≠ i → t ∈ (killTank st i).tanks) ∧
    (∀ t ∈ (killTank st i).tanks, t.idx = i → t.alive = false) ∧
    (∀ pr ∈ (killTank st i).links, refersTank pr i = false) ∧
    (∀ pr ∈ st.links, refersTank pr i = false → pr ∈ (killTank st i).links) ∧
    killTank (killTank st i) i = killTank st i ∧
    (∀ (st2 : EngineState) (j : ℕ), (∀ t ∈ st2.tanks, t.idx = j → t.alive = false) →
      killTank st2 j = st2) ∧
    (∀ evs : List Event, (∀ e ∈ evs, preservesPop e = true) →
      (∀ t ∈ (runEvents (killTank st i) evs).tanks, t.idx = i → t.alive = false) ∧
      (∀ pr ∈ (runEvents (killTank st i) evs).links, refersTank pr i = false) ∧
      (∀ t ∈ (publish (runEvents (killTank st i) evs)).tanks, t.idx ≠ i)) := by
  have hcond : st.tanks.any (fun t => t.idx == i && t.alive) = true := any_alive_iff.mpr h
  have hkill : killTank st i = { st with
      tanks := st.tanks.map (fun t => if t.idx = i then { t with alive := false } else t),
      links := st.links.filter (fun pr => ! refersTank pr i) } := by
    rw [killTank, if_pos hcond]
  have c4 : ∀ t ∈ (killTank st i).tanks, t.idx = i → t.alive = false := by
    intro u hu hui
    rw [hkill] at hu
    obtain ⟨t, ht, rfl⟩ := List.mem_map.mp hu
    by_cases htj : t.idx = i
    · rw [if_pos htj]
    · rw [if_neg htj] at hui
      exact absurd hui htj
  have c5 : ∀ pr ∈ (killTank st i).links, refersTank pr i = false := by
    intro pr hpr
    rw [hkill] at hpr
    rw [List.mem_filter] at hpr
    simpa using hpr.2
  refine ⟨by rw [hkill], by rw [hkill]; simp, ?_, c4, c5, ?_, ?_, killTank_noop, ?_⟩
  · intro t ht hne
    rw [hkill]
    have himg := List.mem_map_of_mem
      (fun t : Tank => if t.idx = i then { t with alive := false } else t) ht
    have himg2 : t ∈ st.tanks.map
        (fun t : Tank => if t.idx = i then { t with alive := false } else t) := by
      simpa [hne] using himg
    exact himg2
  · intro pr hpr href
    rw [hkill]
    rw [List.mem_filter]
    exact ⟨hpr, by simp [href]⟩
  · exact killTank_noop _ i c4
  · intro evs hevs
    have hrun := dead_noRef_runEvents i evs hevs (killTank st i) c4 c5
    refine ⟨hrun.1, hrun.2, ?_⟩
    intro t ht hti
    have ht2 : t ∈ (runEvents (killTank st i) evs).tanks ∧ t.alive = true := by
      simp only [publish] at ht
      rw [List.mem_filter] at ht
      exact ⟨ht.1, ht.2⟩
    have := hrun.1 t ht2.1 hti
    rw [this] at ht2
    simp at ht2

/-- Witness for C8: in a fresh two-tank state, killing tank `0` twice
equals killing it once. -/
theorem kill_tank_semantics_witness :
    killTank (killTank (initState ⟨2, 1, 1, 1⟩ 0) 0) 0 =
      killTank (initState ⟨2, 1, 1, 1⟩ 0) 0 :=
  (kill_tank_semantics (initState ⟨2, 1, 1, 1⟩ 0) 0
    ⟨_, List.mem_cons_self _ _, rfl, rfl⟩).2.2.2.2.2.2.1

end MeshRadio
